import Mathlib

/-!
Verification of the baselinks reconciliation plugin (src/main.ts).

The development shallowly embeds the current variant of the plugin source:
strings are modelled as character lists, workspace leaves and files as natural
number identifiers, and the host application (Obsidian) as a record of oracle
functions describing what each host API call returns during one reconciliation
pass.  The side effects of a pass are recorded as an ordered action trace.
-/

namespace Baselinks

/-- A JavaScript value that may occur as an element of a frontmatter array:
either a string (modelled as its character list) or some non-string value. -/
inductive JsVal where
  | vstr (s : List Char)
  | vother
deriving DecidableEq

/-- The frontmatter property value read by `getBaselinksFromFile`:
`absent` covers a missing file cache, missing frontmatter, or an absent
(undefined) property; `pstr` is a string value (the empty string is the falsy
string); `parr` is an array value; `pother` is any other value (non-string,
non-array), all of which produce an empty result in the source. -/
inductive PropVal where
  | absent
  | pstr (s : List Char)
  | parr (vs : List JsVal)
  | pother
deriving DecidableEq

/-- `getBaselinksFromFile` from src/main.ts: returns `[]` when there is no
frontmatter or the property value is falsy (`if (!propertyValue) return []`,
which fires in particular on the empty string), filters an array value down to
its string elements, wraps a truthy string into a one-element list, and
returns `[]` for any other value. -/
def getBaselinksFromFile : PropVal → List (List Char)
  | .absent => []
  | .pstr s => if s = [] then [] else [s]
  | .parr vs => vs.filterMap (fun v => match v with | .vstr s => some s | .vother => none)
  | .pother => []

/-- One attempt of the regex `\[\[([^\]]+)\]\]` anchored at the start of the
string: it succeeds exactly when the string starts with two open brackets,
followed by a nonempty run of characters other than `]`, followed by two
closing brackets, and it captures that run.  (The greedy `[^\]]+` cannot be
shortened by backtracking, since every shorter run is followed by a
non-`]` character.) -/
def matchBracketAt (s : List Char) : Option (List Char) :=
  match s with
  | a :: b :: rest =>
    if a = '[' ∧ b = '[' then
      let run := rest.takeWhile (fun c => c ≠ ']')
      if run = [] then none
      else
        match rest.dropWhile (fun c => c ≠ ']') with
        | c :: d :: _ => if c = ']' ∧ d = ']' then some run else none
        | _ => none
    else none
  | _ => none

/-- `link.match(/\[\[([^\]]+)\]\]/)` from src/main.ts: an unanchored search
returning the leftmost match, scanning candidate start positions left to
right. -/
def findBracket : List Char → Option (List Char)
  | [] => none
  | c :: cs =>
    match matchBracketAt (c :: cs) with
    | some x => some x
    | none => findBracket cs

/-- JavaScript `String.prototype.split` on a single-character separator:
always returns a nonempty list of segments. -/
def splitOnChar (sep : Char) : List Char → List (List Char)
  | [] => [[]]
  | c :: cs =>
    if c = sep then [] :: splitOnChar sep cs
    else
      match splitOnChar sep cs with
      | [] => [[c]]
      | seg :: rest => (c :: seg) :: rest

/-- `const [filePath, subpath] = linkPath.split('#')` from src/main.ts: the
file path is the first split segment and the subpath is the second split
segment when it exists (JavaScript destructuring yields `undefined`,
modelled as `none`, otherwise). -/
def parseInterior (interior : List Char) : List Char × Option (List Char) :=
  let segs := splitOnChar '#' interior
  (segs.headD [], segs[1]?)

/-- `arraysEqual` from src/main.ts: a length check followed by element-wise
string comparison. -/
def arraysEqual (a b : List (List Char)) : Bool :=
  if a.length ≠ b.length then false
  else (a.zip b).all (fun p => p.1 == p.2)

/-- UI side effects performed by the reconciliation routine, in trace order:
detaching a managed leaf, pushing a leaf onto the managed list, attempting
`leaf.openFile` (with the `viewName` passed in the open state, if any),
revealing a leaf, and restoring the active leaf. -/
inductive Action where
  | detach (leaf : Nat)
  | pushManaged (leaf : Nat)
  | openAttempt (leaf : Nat) (file : Nat) (viewName : Option (List Char))
  | reveal (leaf : Nat)
  | setActive (leaf : Nat)
deriving DecidableEq

/-- The mutable instance state of the plugin: the managed leaves, the
`isUpdating` busy flag, the `currentBaselinks` snapshot, the pending debounce
timer (`updateTimeout`), plus bookkeeping for modelling timers: a counter
handing out fresh timer identifiers and the list of identifiers passed to
`clearTimeout`. -/
structure PluginState where
  managedLeaves : List Nat
  isUpdating : Bool
  currentBaselinks : List (List Char)
  updateTimeout : Option Nat
  nextTimer : Nat
  cancelledTimers : List Nat
deriving DecidableEq

/-- A snapshot of the host application environment during one pass: the active
file, each file's frontmatter property value, the configured default
baselinks, path resolution (`getFirstLinkpathDest` with empty source path),
the active leaf, and the leaf-acquisition oracles.  `rightLeaf i` is what
`getRightLeaf(false)` returns when called at loop index `i`; `hasParent` and
`splitLeaf` describe `previousLeaf.parent` and `createLeafBySplit`;
`openFails leaf file` says whether `leaf.openFile(file, …)` throws. -/
structure Host where
  activeFile : Option Nat
  propOf : Nat → PropVal
  defaultBaselinks : List (List Char)
  resolve : List Char → Option Nat
  activeLeaf : Option Nat
  rightLeaf : Nat → Option Nat
  hasParent : Nat → Bool
  splitLeaf : Nat → Nat → Nat
  openFails : Nat → Nat → Bool

/-- The derivation step of `updateBaselinks`: read the property from the
active file's frontmatter (empty when there is no active file) and fall back
to the configured defaults when the result is empty. -/
def deriveBaselinks (h : Host) : List (List Char) :=
  let fromFile :=
    match h.activeFile with
    | none => []
    | some f => getBaselinksFromFile (h.propOf f)
  if fromFile = [] then h.defaultBaselinks else fromFile

/-- An exception unwinding the entry loop: `nullPrev` is the TypeError raised
by `previousLeaf!.parent` when no earlier entry produced a leaf, and
`openFail` is an exception propagating out of `leaf.openFile`. -/
inductive LoopErr where
  | nullPrev
  | openFail
deriving DecidableEq

/-- Leaf acquisition for entry `i` (src/main.ts lines 504-518): the first
entry takes a leaf from the right sidebar; a later entry reads
`previousLeaf!.parent` — throwing a TypeError when every earlier entry was
skipped, so that `previousLeaf` is still null — and then either splits from
the parent or falls back to the right sidebar when there is no parent. -/
def acquireLeaf (h : Host) (i : Nat) (prev : Option Nat) : Except LoopErr (Option Nat) :=
  if i = 0 then .ok (h.rightLeaf i)
  else
    match prev with
    | none => .error .nullPrev
    | some p => if h.hasParent p then .ok (some (h.splitLeaf p i)) else .ok (h.rightLeaf i)

/-- The per-entry loop of `updateBaselinks` (src/main.ts lines 481-542).
For each entry: parse the bracket link (skip on failure), split the interior
on `#`, resolve the file path (skip on failure), acquire a leaf (skip when
null, abort the pass when `previousLeaf!.parent` throws), push the leaf onto
the managed list, open the file — passing `viewName` only when the subpath is
truthy, and aborting the pass when the open throws — and reveal the leaf of
entry index 0.  Returns the final managed list, the emitted actions in trace
order, and the exception (if any) that unwound the loop. -/
def runLoop (h : Host) :
    List (List Char) → Nat → Option Nat → List Nat →
      List Nat × List Action × Option LoopErr
  | [], _, _, managed => (managed, [], none)
  | link :: rest, i, prev, managed =>
    match findBracket link with
    | none => runLoop h rest (i + 1) prev managed
    | some interior =>
      let fp := parseInterior interior
      match h.resolve fp.1 with
      | none => runLoop h rest (i + 1) prev managed
      | some file =>
        match acquireLeaf h i prev with
        | .error e => (managed, [], some e)
        | .ok none => runLoop h rest (i + 1) prev managed
        | .ok (some leaf) =>
          let viewName : Option (List Char) :=
            match fp.2 with
            | some sub => if sub = [] then none else some sub
            | none => none
          match h.openFails leaf file with
          | true =>
            (managed ++ [leaf],
             [Action.pushManaged leaf, Action.openAttempt leaf file viewName],
             some LoopErr.openFail)
          | false =>
            let r := runLoop h rest (i + 1) (some leaf) (managed ++ [leaf])
            (r.1,
             Action.pushManaged leaf :: Action.openAttempt leaf file viewName ::
               ((if i = 0 then [Action.reveal leaf] else []) ++ r.2.1),
             r.2.2)

/-- The result of one `updateBaselinks` call: the final plugin state, the UI
actions emitted in order, and the exception (if any) that unwound the
routine (after the `finally` block ran). -/
structure UpdateResult where
  state : PluginState
  acts : List Action
  err : Option LoopErr
deriving DecidableEq

/-- The focus-restoration step (src/main.ts lines 544-547): restore the
originally active leaf when there was one and it is not among the managed
leaves (`managedLeaves.includes`, i.e. membership). -/
def focusActs (h : Host) (managed : List Nat) : List Action :=
  match h.activeLeaf with
  | some l => if l ∈ managed then [] else [Action.setActive l]
  | none => []

/-- The body of `updateBaselinks` past the busy guard and the change-detection
check (src/main.ts lines 468-547): record the snapshot, detach every managed
leaf and clear the managed list, return when the derived list is empty,
otherwise run the entry loop and — when it completes without an exception —
restore focus to the originally active leaf if it is not one of the managed
leaves.  The `finally` block clears `isUpdating` on every path. -/
def reconcile (h : Host) (s : PluginState) : UpdateResult :=
  let baselinks := deriveBaselinks h
  let s1 := { s with currentBaselinks := baselinks, managedLeaves := [],
                     isUpdating := false }
  let detachActs := s.managedLeaves.map Action.detach
  if baselinks = [] then ⟨s1, detachActs, none⟩
  else
    let r := runLoop h baselinks 0 none []
    let s2 := { s1 with managedLeaves := r.1 }
    match r.2.2 with
    | some e => ⟨s2, detachActs ++ r.2.1, some e⟩
    | none => ⟨s2, detachActs ++ r.2.1 ++ focusActs h r.1, none⟩

/-- `updateBaselinks` from src/main.ts (lines 437-551): return immediately
when a previous invocation is in flight; derive the baselinks list; return
without touching the UI when it equals the `currentBaselinks` snapshot
(`arraysEqual`); otherwise reconcile the pane tree. -/
def updateBaselinks (h : Host) (s : PluginState) : UpdateResult :=
  if s.isUpdating then ⟨s, [], none⟩
  else if arraysEqual s.currentBaselinks (deriveBaselinks h) then
    ⟨{ s with isUpdating := false }, [], none⟩
  else reconcile h s

/-- The first guard of `scheduleUpdate`: whether the currently active leaf is
one of the managed leaves (`managedLeaves.includes(activeLeaf)`). -/
def managedActive (h : Host) (s : PluginState) : Bool :=
  match h.activeLeaf with
  | some l => s.managedLeaves.contains l
  | none => false

/-- `scheduleUpdate` from src/main.ts (lines 407-428): ignore the
notification entirely when the active leaf is a managed leaf; drop it when an
update is in flight; otherwise cancel any pending debounce timer
(`clearTimeout`) and schedule a fresh one. -/
def scheduleUpdate (h : Host) (s : PluginState) : PluginState :=
  if managedActive h s then s
  else if s.isUpdating then s
  else
    { s with
      cancelledTimers :=
        (match s.updateTimeout with
         | some t => [t]
         | none => []) ++ s.cancelledTimers,
      updateTimeout := some s.nextTimer,
      nextTimer := s.nextTimer + 1 }

/-- Trace check: every `openAttempt` action in the list is on a leaf that an
earlier `pushManaged` action (or the initial `seen` list) already recorded. -/
def pushedBefore (seen : List Nat) : List Action → Bool
  | [] => true
  | Action.pushManaged l :: rest => pushedBefore (l :: seen) rest
  | Action.openAttempt l _ _ :: rest => seen.contains l && pushedBefore seen rest
  | _ :: rest => pushedBefore seen rest

/-- Spec-side description of the link grammar: the entry `s` contains,
starting right after `pre`, a substring of the form `[[x]]` where the
interior `x` is nonempty and contains no `]`. -/
def bracketDecomp (s pre x post : List Char) : Prop :=
  s = pre ++ '[' :: '[' :: (x ++ ']' :: ']' :: post) ∧ x ≠ [] ∧ ∀ c ∈ x, c ≠ ']'

/-- Spec-side description of the second `split('#')` segment of an interior:
the portion strictly between the first `#` and the next `#` (or the end of the
interior), when a first `#` exists. -/
def secondSegment (i : List Char) : Option (List Char) :=
  match i.dropWhile (fun c => c ≠ '#') with
  | [] => none
  | _ :: rest => some (rest.takeWhile (fun c => c ≠ '#'))

/-- Timer bookkeeping sanity: every pending or cancelled timer identifier was
handed out before `nextTimer`. -/
def timersBelow (s : PluginState) : Prop :=
  (∀ t, s.updateTimeout = some t → t < s.nextTimer) ∧
  ∀ t ∈ s.cancelledTimers, t < s.nextTimer

/-! ### Concrete instances used by witnesses and counterexamples -/

/-- The empty plugin state: nothing managed, not updating, empty snapshot. -/
def s0 : PluginState := ⟨[], false, [], none, 0, []⟩

/-- A state in which a previous invocation is still in flight. -/
def sBusy : PluginState := ⟨[], true, [], none, 0, []⟩

/-- A trivial host: no active file, no defaults, nothing resolvable. -/
def hTriv : Host :=
  { activeFile := none
    propOf := fun _ => PropVal.absent
    defaultBaselinks := []
    resolve := fun _ => none
    activeLeaf := none
    rightLeaf := fun _ => none
    hasParent := fun _ => false
    splitLeaf := fun _ _ => 0
    openFails := fun _ _ => false }

/-- Host whose active file carries the single property string "bad", which is
not a well-formed bracket link. -/
def hC4 : Host :=
  { activeFile := some 0
    propOf := fun _ => PropVal.pstr ['b', 'a', 'd']
    defaultBaselinks := []
    resolve := fun _ => none
    activeLeaf := none
    rightLeaf := fun _ => none
    hasParent := fun _ => false
    splitLeaf := fun _ _ => 0
    openFails := fun _ _ => false }

/-- Host with no active file and no defaults, whose active leaf is leaf 7. -/
def hC5 : Host :=
  { activeFile := none
    propOf := fun _ => PropVal.absent
    defaultBaselinks := []
    resolve := fun _ => none
    activeLeaf := some 7
    rightLeaf := fun _ => none
    hasParent := fun _ => false
    splitLeaf := fun _ _ => 0
    openFails := fun _ _ => false }

/-- A state whose snapshot holds one link, so that an empty derived list
passes change detection. -/
def sC5 : PluginState := ⟨[], false, [['x']], none, 0, []⟩

/-- Host with the single default entry `[[a]]`, whose path resolves to file 1,
a right-sidebar leaf 3 available, opens succeeding, and active leaf 7. -/
def hC5w : Host :=
  { activeFile := none
    propOf := fun _ => PropVal.absent
    defaultBaselinks := [['[', '[', 'a', ']', ']']]
    resolve := fun p => if p = ['a'] then some 1 else none
    activeLeaf := some 7
    rightLeaf := fun _ => some 3
    hasParent := fun _ => true
    splitLeaf := fun _ i => 10 + i
    openFails := fun _ _ => false }

/-- The path interior of the second C8 entry. -/
def tasksPath : List Char := ['t', 'a', 's', 'k', 's']

/-- The entry `[[miss]]`, whose path does not resolve. -/
def missingLink : List Char := ['[', '[', 'm', 'i', 's', 's', ']', ']']

/-- The entry `[[tasks]]`, whose path resolves to file 1. -/
def tasksLink : List Char := ['[', '[', 't', 'a', 's', 'k', 's', ']', ']']

/-- Host for the C8 failing input: the derived list is
`[[[miss]], [[tasks]]]`, the first path unresolvable, the second resolvable,
with leaves available and opens succeeding. -/
def hC8 : Host :=
  { activeFile := none
    propOf := fun _ => PropVal.absent
    defaultBaselinks := [missingLink, tasksLink]
    resolve := fun p => if p = tasksPath then some 1 else none
    activeLeaf := none
    rightLeaf := fun _ => some 3
    hasParent := fun _ => true
    splitLeaf := fun _ i => 10 + i
    openFails := fun _ _ => false }

/-- Host whose active leaf is leaf 5, used for the scheduler claims. -/
def hC7 : Host :=
  { activeFile := none
    propOf := fun _ => PropVal.absent
    defaultBaselinks := []
    resolve := fun _ => none
    activeLeaf := some 5
    rightLeaf := fun _ => none
    hasParent := fun _ => false
    splitLeaf := fun _ _ => 0
    openFails := fun _ _ => false }

/-- A state in which leaf 5 is a managed leaf. -/
def sMng7 : PluginState := ⟨[5], false, [], none, 0, []⟩

/-- An idle state with a pending debounce timer 0 and next fresh timer 1. -/
def sT7 : PluginState := ⟨[], false, [], some 0, 1, []⟩

/-! ### Basic lemmas -/

theorem arraysEqual_self (a : List (List Char)) : arraysEqual a a = true := by
  have h : ∀ b : List (List Char), (b.zip b).all (fun p => p.1 == p.2) = true := by
    intro b
    induction b with
    | nil => rfl
    | cons x xs ih => simpa using ih
  simp [arraysEqual, h a]

theorem updateBaselinks_busy (h : Host) (s : PluginState) (hb : s.isUpdating = true) :
    updateBaselinks h s = ⟨s, [], none⟩ := by
  simp [updateBaselinks, hb]

theorem updateBaselinks_unchanged (h : Host) (s : PluginState)
    (hb : s.isUpdating = false)
    (he : arraysEqual s.currentBaselinks (deriveBaselinks h) = true) :
    updateBaselinks h s = ⟨{ s with isUpdating := false }, [], none⟩ := by
  simp [updateBaselinks, hb, he]

theorem updateBaselinks_changed (h : Host) (s : PluginState)
    (hb : s.isUpdating = false)
    (he : arraysEqual s.currentBaselinks (deriveBaselinks h) = false) :
    updateBaselinks h s = reconcile h s := by
  simp [updateBaselinks, hb, he]

theorem reconcile_snapshot (h : Host) (s : PluginState) :
    (reconcile h s).state.currentBaselinks = deriveBaselinks h := by
  simp only [reconcile]
  split
  · rfl
  · split <;> rfl

theorem reconcile_notUpdating (h : Host) (s : PluginState) :
    (reconcile h s).state.isUpdating = false := by
  simp only [reconcile]
  split
  · rfl
  · split <;> rfl

theorem reconcile_empty (h : Host) (s : PluginState) (hne : deriveBaselinks h = []) :
    reconcile h s =
      ⟨{ s with currentBaselinks := deriveBaselinks h, managedLeaves := [],
                isUpdating := false },
       s.managedLeaves.map Action.detach, none⟩ := by
  simp only [reconcile, hne]
  simp

theorem reconcile_err (h : Host) (s : PluginState) (e : LoopErr)
    (hne : deriveBaselinks h ≠ [])
    (he : (runLoop h (deriveBaselinks h) 0 none []).2.2 = some e) :
    reconcile h s =
      ⟨{ s with currentBaselinks := deriveBaselinks h,
                managedLeaves := (runLoop h (deriveBaselinks h) 0 none []).1,
                isUpdating := false },
       s.managedLeaves.map Action.detach ++ (runLoop h (deriveBaselinks h) 0 none []).2.1,
       some e⟩ := by
  simp only [reconcile]
  rw [if_neg hne, he]

theorem reconcile_ok (h : Host) (s : PluginState)
    (hne : deriveBaselinks h ≠ [])
    (hok : (runLoop h (deriveBaselinks h) 0 none []).2.2 = none) :
    reconcile h s =
      ⟨{ s with currentBaselinks := deriveBaselinks h,
                managedLeaves := (runLoop h (deriveBaselinks h) 0 none []).1,
                isUpdating := false },
       s.managedLeaves.map Action.detach ++ (runLoop h (deriveBaselinks h) 0 none []).2.1 ++
         focusActs h (runLoop h (deriveBaselinks h) 0 none []).1,
       none⟩ := by
  simp only [reconcile]
  rw [if_neg hne, hok]

theorem focusActs_none (h : Host) (m : List Nat) (hal : h.activeLeaf = none) :
    focusActs h m = [] := by
  simp [focusActs, hal]

theorem focusActs_mem (h : Host) (m : List Nat) (l : Nat)
    (hal : h.activeLeaf = some l) (hm : l ∈ m) : focusActs h m = [] := by
  simp [focusActs, hal, hm]

theorem focusActs_restore (h : Host) (m : List Nat) (l : Nat)
    (hal : h.activeLeaf = some l) (hm : l ∉ m) :
    focusActs h m = [Action.setActive l] := by
  simp [focusActs, hal, hm]

/-! ### Claim theorems -/

/-- Claim C1: when the derived list equals the `currentBaselinks` snapshot,
`updateBaselinks` returns with no actions (no detach, no pane creation), an
unchanged managed list, an unchanged snapshot and no error; and running
`updateBaselinks` twice against the same host snapshot leaves the managed
pane list after the second call identical to the list after the first. -/
theorem c1_idempotent (h : Host) (s : PluginState) :
    (deriveBaselinks h = s.currentBaselinks →
      (updateBaselinks h s).acts = [] ∧
      (updateBaselinks h s).state.managedLeaves = s.managedLeaves ∧
      (updateBaselinks h s).state.currentBaselinks = s.currentBaselinks ∧
      (updateBaselinks h s).err = none) ∧
    (updateBaselinks h (updateBaselinks h s).state).state.managedLeaves =
      (updateBaselinks h s).state.managedLeaves := by
  constructor
  · intro hd
    cases hb : s.isUpdating with
    | true =>
      rw [updateBaselinks_busy h s hb]
      exact ⟨rfl, rfl, rfl, rfl⟩
    | false =>
      have he : arraysEqual s.currentBaselinks (deriveBaselinks h) = true := by
        rw [hd]
        exact arraysEqual_self _
      rw [updateBaselinks_unchanged h s hb he]
      exact ⟨rfl, rfl, rfl, rfl⟩
  · cases hb : s.isUpdating with
    | true =>
      have h1 := updateBaselinks_busy h s hb
      rw [h1, show (⟨s, [], none⟩ : UpdateResult).state = s from rfl, h1]
    | false =>
      cases he : arraysEqual s.currentBaselinks (deriveBaselinks h) with
      | true =>
        rw [updateBaselinks_unchanged h s hb he,
          show (⟨{ s with isUpdating := false }, [], none⟩ : UpdateResult).state
            = { s with isUpdating := false } from rfl,
          updateBaselinks_unchanged h { s with isUpdating := false } rfl he]
      | false =>
        rw [updateBaselinks_changed h s hb he]
        have h2 : arraysEqual (reconcile h s).state.currentBaselinks
            (deriveBaselinks h) = true := by
          rw [reconcile_snapshot]
          exact arraysEqual_self _
        rw [updateBaselinks_unchanged h (reconcile h s).state
          (reconcile_notUpdating h s) h2]

/-- Witness for C1 at the trivial host and empty state, where the derived
list (empty) equals the snapshot (empty). -/
theorem c1_witness :
    deriveBaselinks hTriv = s0.currentBaselinks ∧
    (updateBaselinks hTriv s0).acts = [] ∧
    (updateBaselinks hTriv s0).state.managedLeaves = s0.managedLeaves ∧
    (updateBaselinks hTriv s0).state.currentBaselinks = s0.currentBaselinks ∧
    (updateBaselinks hTriv s0).err = none :=
  have hd : deriveBaselinks hTriv = s0.currentBaselinks := by decide
  ⟨hd, (c1_idempotent hTriv s0).1 hd⟩

/-- Counterexample to claim C3 as stated: for the empty string the property
value is falsy, so `getBaselinksFromFile` returns the empty list rather than
the one-element list containing the empty string. -/
theorem c3_cex :
    getBaselinksFromFile (PropVal.pstr []) = [] ∧
    ([] : List (List Char)) ≠ [[]] := by decide

/-- Claim C3 as amended: for every nonempty single string property value,
`getBaselinksFromFile` returns exactly the one-element list containing it. -/
theorem c3_single_string (s : List Char) (hs : s ≠ []) :
    getBaselinksFromFile (PropVal.pstr s) = [s] := by
  simp [getBaselinksFromFile, hs]

/-- Witness for the amended C3 at the one-character string "a". -/
theorem c3_witness : getBaselinksFromFile (PropVal.pstr ['a']) = [['a']] :=
  c3_single_string ['a'] (by decide)

/-- Counterexample to claim C4 as stated: with derived list `["bad"]` (not a
bracket link, so nothing is rendered) the pass emits no action at all and yet
updates the snapshot to `["bad"]`; the snapshot therefore does not equal the
sequence of links actually rendered, and it is updated by a pass that renders
fewer entries than the derived list. -/
theorem c4_cex :
    (updateBaselinks hC4 s0).state.currentBaselinks = [['b', 'a', 'd']] ∧
    (updateBaselinks hC4 s0).acts = [] ∧
    (updateBaselinks hC4 s0).err = none := by decide

/-- Claim C4 as amended: every invocation that passes the busy guard and the
change-detection check sets the snapshot to the full derived list (this
happens before entry processing, so it holds even for passes that fail or
skip entries), and every other invocation leaves the snapshot unchanged. -/
theorem c4_snapshot (h : Host) (s : PluginState) :
    (s.isUpdating = false →
      arraysEqual s.currentBaselinks (deriveBaselinks h) = false →
      (updateBaselinks h s).state.currentBaselinks = deriveBaselinks h) ∧
    (s.isUpdating = true ∨
        arraysEqual s.currentBaselinks (deriveBaselinks h) = true →
      (updateBaselinks h s).state.currentBaselinks = s.currentBaselinks) := by
  constructor
  · intro hb he
    rw [updateBaselinks_changed h s hb he]
    exact reconcile_snapshot h s
  · intro hor
    cases hb : s.isUpdating with
    | true => rw [updateBaselinks_busy h s hb]
    | false =>
      cases hor with
      | inl h1 => exact absurd (hb ▸ h1) (by simp)
      | inr h2 => rw [updateBaselinks_unchanged h s hb h2]

/-- Witness for the amended C4: a changed pass records the derived list, and
a busy pass leaves the snapshot alone. -/
theorem c4_witness :
    (updateBaselinks hC4 s0).state.currentBaselinks = deriveBaselinks hC4 ∧
    (updateBaselinks hC4 sBusy).state.currentBaselinks = sBusy.currentBaselinks :=
  ⟨(c4_snapshot hC4 s0).1 (by decide) (by decide),
   (c4_snapshot hC4 sBusy).2 (Or.inl (by decide))⟩

/-- Counterexample to claim C5 as stated: a pass that proceeds past change
detection with an empty derived list returns before the focus-restoration
step, so the previously active leaf 7 — which is not managed afterwards — is
never restored as the focused leaf. -/
theorem c5_cex :
    sC5.isUpdating = false ∧
    arraysEqual sC5.currentBaselinks (deriveBaselinks hC5) = false ∧
    hC5.activeLeaf = some 7 ∧
    7 ∉ (updateBaselinks hC5 sC5).state.managedLeaves ∧
    Action.setActive 7 ∉ (updateBaselinks hC5 sC5).acts := by decide

/-- Claim C5 as amended: for every pass that proceeds past change detection
with a nonempty derived list and whose entry loop completes without an
exception, if the leaf that was active before the pass is not among the
managed leaves afterwards, it is restored as the focused leaf. -/
theorem c5_focus_restore (h : Host) (s : PluginState) (l : Nat)
    (hb : s.isUpdating = false)
    (he : arraysEqual s.currentBaselinks (deriveBaselinks h) = false)
    (hne : deriveBaselinks h ≠ [])
    (hok : (updateBaselinks h s).err = none)
    (hl : h.activeLeaf = some l)
    (hm : l ∉ (updateBaselinks h s).state.managedLeaves) :
    Action.setActive l ∈ (updateBaselinks h s).acts := by
  rw [updateBaselinks_changed h s hb he] at hok hm ⊢
  cases herr : (runLoop h (deriveBaselinks h) 0 none []).2.2 with
  | some e =>
    rw [reconcile_err h s e hne herr] at hok
    exact absurd hok (by simp)
  | none =>
    rw [reconcile_ok h s hne herr] at hm ⊢
    have hm2 : l ∉ (runLoop h (deriveBaselinks h) 0 none []).1 := hm
    rw [focusActs_restore h _ l hl hm2]
    simp

/-- Witness for the amended C5: with one default entry rendering into leaf 3
and leaf 7 active before the pass, leaf 7 regains focus. -/
theorem c5_witness : Action.setActive 7 ∈ (updateBaselinks hC5w s0).acts :=
  c5_focus_restore hC5w s0 7 (by decide) (by decide) (by decide) (by decide)
    (by decide) (by decide)

/-- Claim C6: a call made while a previous invocation is in flight returns
immediately with no state change, no action and no error, and a call that
does run leaves the busy flag cleared on every exit path (the `finally`
block), including early returns and error paths. -/
theorem c6_reentrancy (h : Host) (s : PluginState) :
    (s.isUpdating = true → updateBaselinks h s = ⟨s, [], none⟩) ∧
    (s.isUpdating = false → (updateBaselinks h s).state.isUpdating = false) := by
  constructor
  · exact updateBaselinks_busy h s
  · intro hb
    cases he : arraysEqual s.currentBaselinks (deriveBaselinks h) with
    | true => rw [updateBaselinks_unchanged h s hb he]
    | false =>
      rw [updateBaselinks_changed h s hb he]
      exact reconcile_notUpdating h s

/-- Witness for C6: a busy call is a no-op, and a completed call has the busy
flag cleared. -/
theorem c6_witness :
    updateBaselinks hTriv sBusy = ⟨sBusy, [], none⟩ ∧
    (updateBaselinks hC4 s0).state.isUpdating = false :=
  ⟨(c6_reentrancy hTriv sBusy).1 rfl, (c6_reentrancy hC4 s0).2 rfl⟩

/-- Claim C8 is the intended behaviour, but the code violates it: on the
derived list `[[[miss]], [[tasks]]]` — the first path unresolvable, the
second resolvable (`hC8.resolve tasksPath = some 1`) — the first entry is
skipped leaving `previousLeaf` null, and the second entry then dereferences
`previousLeaf!.parent`, throwing a TypeError that aborts the pass: the
routine ends with the `nullPrev` error, no managed pane and no action, so the
valid second entry is never processed. -/
theorem c8_bug :
    (updateBaselinks hC8 s0).err = some LoopErr.nullPrev ∧
    (updateBaselinks hC8 s0).state.managedLeaves = [] ∧
    (updateBaselinks hC8 s0).acts = [] ∧
    hC8.resolve tasksPath = some 1 := by decide

theorem scheduleUpdate_go (h : Host) (s : PluginState)
    (hm : managedActive h s = false) (hb : s.isUpdating = false) :
    scheduleUpdate h s =
      { s with
        cancelledTimers :=
          (match s.updateTimeout with
           | some t => [t]
           | none => []) ++ s.cancelledTimers,
        updateTimeout := some s.nextTimer,
        nextTimer := s.nextTimer + 1 } := by
  simp [scheduleUpdate, hm, hb]

theorem scheduleUpdate_iter (h : Host) (s : PluginState)
    (hm : managedActive h s = false) (hb : s.isUpdating = false) :
    ∀ k, (scheduleUpdate h)^[k + 1] s =
      { s with
        updateTimeout := some (s.nextTimer + k),
        nextTimer := s.nextTimer + k + 1,
        cancelledTimers :=
          (List.range k).reverse.map (fun j => s.nextTimer + j) ++
            ((match s.updateTimeout with
              | some t => [t]
              | none => []) ++ s.cancelledTimers) } := by
  intro k
  induction k with
  | zero =>
    rw [show (0 : Nat) + 1 = 1 from rfl, Function.iterate_one,
      scheduleUpdate_go h s hm hb]
    simp
  | succ k ih =>
    rw [Function.iterate_succ_apply', ih,
      scheduleUpdate_go h _ (by exact hm) (by exact hb)]
    simp [List.range_succ]
    omega

/-- Claim C7: `scheduleUpdate` ignores a notification entirely (no state
change, no timer) when the active leaf is managed; it drops — rather than
queues — any other notification arriving while an update is in flight;
otherwise it cancels the pending timer and schedules a fresh one, and a burst
of `k + 1` such notifications leaves exactly one live timer (the one created
last), every earlier timer of the burst and any previously pending timer
having been cancelled, so that exactly one reconciliation call results. -/
theorem c7_schedule (h : Host) (s : PluginState) :
    (managedActive h s = true → scheduleUpdate h s = s) ∧
    (managedActive h s = false → s.isUpdating = true → scheduleUpdate h s = s) ∧
    (managedActive h s = false → s.isUpdating = false →
      (scheduleUpdate h s).updateTimeout = some s.nextTimer ∧
      ∀ t, s.updateTimeout = some t → t ∈ (scheduleUpdate h s).cancelledTimers) ∧
    (managedActive h s = false → s.isUpdating = false → timersBelow s →
      ∀ k, ((scheduleUpdate h)^[k + 1] s).updateTimeout = some (s.nextTimer + k) ∧
        (∀ j, j < k →
          s.nextTimer + j ∈ ((scheduleUpdate h)^[k + 1] s).cancelledTimers) ∧
        s.nextTimer + k ∉ ((scheduleUpdate h)^[k + 1] s).cancelledTimers) := by
  refine ⟨fun hm => ?_, fun hm hb => ?_, fun hm hb => ?_, fun hm hb hinv k => ?_⟩
  · simp [scheduleUpdate, hm]
  · simp [scheduleUpdate, hm, hb]
  · rw [scheduleUpdate_go h s hm hb]
    refine ⟨rfl, fun t ht => ?_⟩
    rw [ht]
    simp
  · rw [scheduleUpdate_iter h s hm hb k]
    refine ⟨rfl, fun j hj => ?_, fun hmem => ?_⟩
    · simp only [List.mem_append, List.mem_map, List.mem_reverse, List.mem_range]
      exact Or.inl ⟨j, hj, rfl⟩
    · simp only [List.mem_append, List.mem_map, List.mem_reverse,
        List.mem_range] at hmem
      rcases hmem with ⟨j, hj, hje⟩ | hopt | hold
      · omega
      · cases hu : s.updateTimeout with
        | none =>
          rw [hu] at hopt
          simp at hopt
        | some t =>
          rw [hu] at hopt
          simp at hopt
          have ht := hinv.1 t hu
          omega
      · have ht := hinv.2 _ hold
        omega

/-- Witness for C7: a managed-leaf notification is a no-op, a busy-time
notification is a no-op, an idle notification cancels the pending timer 0
and schedules timer 1, and a burst of three notifications leaves exactly the
last timer live. -/
theorem c7_witness :
    scheduleUpdate hC7 sMng7 = sMng7 ∧
    scheduleUpdate hC7 sBusy = sBusy ∧
    (scheduleUpdate hC7 sT7).updateTimeout = some sT7.nextTimer ∧
    0 ∈ (scheduleUpdate hC7 sT7).cancelledTimers ∧
    ((scheduleUpdate hC7)^[2 + 1] sT7).updateTimeout = some (sT7.nextTimer + 2) ∧
    sT7.nextTimer + 2 ∉ ((scheduleUpdate hC7)^[2 + 1] sT7).cancelledTimers :=
  have hinv : timersBelow sT7 :=
    ⟨fun t ht => by simp [sT7] at ht ⊢; omega, fun t ht => by simp [sT7] at ht⟩
  ⟨(c7_schedule hC7 sMng7).1 (by decide),
   (c7_schedule hC7 sBusy).2.1 (by decide) (by decide),
   ((c7_schedule hC7 sT7).2.2.1 (by decide) (by decide)).1,
   ((c7_schedule hC7 sT7).2.2.1 (by decide) (by decide)).2 0 rfl,
   ((c7_schedule hC7 sT7).2.2.2 (by decide) (by decide) hinv 2).1,
   ((c7_schedule hC7 sT7).2.2.2 (by decide) (by decide) hinv 2).2.2⟩

theorem runLoop_mono (h : Host) :
    ∀ entries i prev managed, ∀ x ∈ managed,
      x ∈ (runLoop h entries i prev managed).1 := by
  intro entries
  induction entries with
  | nil => intro i prev managed x hx; exact hx
  | cons link rest ih =>
    intro i prev managed x hx
    cases hfb : findBracket link with
    | none =>
      simp only [runLoop, hfb]
      exact ih _ _ _ x hx
    | some interior =>
      cases hr : h.resolve (parseInterior interior).1 with
      | none =>
        simp only [runLoop, hfb, hr]
        exact ih _ _ _ x hx
      | some file =>
        cases ha : acquireLeaf h i prev with
        | error e =>
          simp only [runLoop, hfb, hr, ha]
          exact hx
        | ok o =>
          cases o with
          | none =>
            simp only [runLoop, hfb, hr, ha]
            exact ih _ _ _ x hx
          | some leaf =>
            cases hof : h.openFails leaf file with
            | false =>
              simp only [runLoop, hfb, hr, ha, hof]
              exact ih _ _ _ x (List.mem_append_left _ hx)
            | true =>
              simp only [runLoop, hfb, hr, ha, hof]
              exact List.mem_append_left _ hx

theorem runLoop_open_mem (h : Host) :
    ∀ entries i prev managed l f v,
      Action.openAttempt l f v ∈ (runLoop h entries i prev managed).2.1 →
      l ∈ (runLoop h entries i prev managed).1 := by
  intro entries
  induction entries with
  | nil =>
    intro i prev managed l f v hmem
    simp [runLoop] at hmem
  | cons link rest ih =>
    intro i prev managed l f v hmem
    cases hfb : findBracket link with
    | none =>
      simp only [runLoop, hfb] at hmem ⊢
      exact ih _ _ _ l f v hmem
    | some interior =>
      cases hr : h.resolve (parseInterior interior).1 with
      | none =>
        simp only [runLoop, hfb, hr] at hmem ⊢
        exact ih _ _ _ l f v hmem
      | some file =>
        cases ha : acquireLeaf h i prev with
        | error e =>
          simp only [runLoop, hfb, hr, ha] at hmem
          simp at hmem
        | ok o =>
          cases o with
          | none =>
            simp only [runLoop, hfb, hr, ha] at hmem ⊢
            exact ih _ _ _ l f v hmem
          | some leaf =>
            cases hof : h.openFails leaf file with
            | true =>
              simp only [runLoop, hfb, hr, ha, hof] at hmem ⊢
              simp only [List.mem_cons] at hmem
              rcases hmem with hpush | hopen | hnil
              · exact absurd hpush (by simp)
              · injection hopen with hl hf hv
                subst hl
                exact List.mem_append_right _ (by simp)
              · simp at hnil
            | false =>
              simp only [runLoop, hfb, hr, ha, hof] at hmem ⊢
              simp only [List.mem_cons, List.mem_append] at hmem
              rcases hmem with hpush | hopen | hrev | hacts
              · exact absurd hpush (by simp)
              · injection hopen with hl hf hv
                subst hl
                exact runLoop_mono h _ _ _ _ _
                  (List.mem_append_right _ (by simp))
              · exfalso
                by_cases hi : i = 0
                · rw [if_pos hi] at hrev
                  simp at hrev
                · rw [if_neg hi] at hrev
                  simp at hrev
              · exact ih _ _ _ l f v hacts

theorem runLoop_pushedBefore (h : Host) :
    ∀ entries i prev managed seen,
      pushedBefore seen (runLoop h entries i prev managed).2.1 = true := by
  intro entries
  induction entries with
  | nil => intro i prev managed seen; rfl
  | cons link rest ih =>
    intro i prev managed seen
    cases hfb : findBracket link with
    | none =>
      simp only [runLoop, hfb]
      exact ih _ _ _ _
    | some interior =>
      cases hr : h.resolve (parseInterior interior).1 with
      | none =>
        simp only [runLoop, hfb, hr]
        exact ih _ _ _ _
      | some file =>
        cases ha : acquireLeaf h i prev with
        | error e =>
          simp only [runLoop, hfb, hr, ha]
          rfl
        | ok o =>
          cases o with
          | none =>
            simp only [runLoop, hfb, hr, ha]
            exact ih _ _ _ _
          | some leaf =>
            cases hof : h.openFails leaf file with
            | true =>
              simp only [runLoop, hfb, hr, ha, hof]
              simp [pushedBefore, List.contains_cons]
            | false =>
              simp only [runLoop, hfb, hr, ha, hof]
              by_cases hi : i = 0
              · simp only [if_pos hi, pushedBefore, List.singleton_append,
                  List.contains_cons, beq_self_eq_true, Bool.true_or,
                  Bool.true_and]
                exact ih _ _ _ _
              · simp only [if_neg hi, pushedBefore, List.nil_append,
                  List.contains_cons, beq_self_eq_true, Bool.true_or,
                  Bool.true_and]
                exact ih _ _ _ _

theorem pushedBefore_detaches (ms : List Nat) (acts : List Action)
    (seen : List Nat) :
    pushedBefore seen (ms.map Action.detach ++ acts) = pushedBefore seen acts := by
  induction ms with
  | nil => rfl
  | cons m ms ih => simpa [pushedBefore] using ih

theorem pushedBefore_append_setActive (acts : List Action) (l : Nat) :
    ∀ seen, pushedBefore seen acts = true →
      pushedBefore seen (acts ++ [Action.setActive l]) = true := by
  induction acts with
  | nil => intro seen _; rfl
  | cons a rest ih =>
    intro seen hp
    cases a with
    | pushManaged m =>
      simp only [List.cons_append, pushedBefore] at hp ⊢
      exact ih _ hp
    | openAttempt m f v =>
      simp only [List.cons_append, pushedBefore, Bool.and_eq_true] at hp ⊢
      exact ⟨hp.1, ih _ hp.2⟩
    | detach m =>
      simp only [List.cons_append, pushedBefore] at hp ⊢
      exact ih _ hp
    | reveal m =>
      simp only [List.cons_append, pushedBefore] at hp ⊢
      exact ih _ hp
    | setActive m =>
      simp only [List.cons_append, pushedBefore] at hp ⊢
      exact ih _ hp

/-- Claim C9: in the trace of every `updateBaselinks` call, each
`openAttempt` on a leaf is preceded by the `pushManaged` of that leaf (the
code pushes onto `managedLeaves` strictly before calling `openFile`), and
every leaf on which an open was attempted — including one whose open threw —
is a member of the final managed list, which the next cleanup detaches. -/
theorem c9_push_before_open (h : Host) (s : PluginState) :
    pushedBefore [] (updateBaselinks h s).acts = true ∧
    ∀ l f v, Action.openAttempt l f v ∈ (updateBaselinks h s).acts →
      l ∈ (updateBaselinks h s).state.managedLeaves := by
  cases hb : s.isUpdating with
  | true =>
    rw [updateBaselinks_busy h s hb]
    exact ⟨rfl, fun l f v hm => by simp at hm⟩
  | false =>
    cases he : arraysEqual s.currentBaselinks (deriveBaselinks h) with
    | true =>
      rw [updateBaselinks_unchanged h s hb he]
      exact ⟨rfl, fun l f v hm => by simp at hm⟩
    | false =>
      rw [updateBaselinks_changed h s hb he]
      by_cases hne : deriveBaselinks h = []
      · rw [reconcile_empty h s hne]
        constructor
        · have hd := pushedBefore_detaches s.managedLeaves [] []
          simpa using hd
        · intro l f v hm
          simp only [List.mem_map] at hm
          rcases hm with ⟨m, _, hmm⟩
          cases hmm
      · cases herr : (runLoop h (deriveBaselinks h) 0 none []).2.2 with
        | some e =>
          rw [reconcile_err h s e hne herr]
          constructor
          · rw [pushedBefore_detaches]
            exact runLoop_pushedBefore h _ _ _ _ _
          · intro l f v hm
            rcases List.mem_append.1 hm with hd | hl2
            · rcases List.mem_map.1 hd with ⟨m, _, hmm⟩
              cases hmm
            · exact runLoop_open_mem h _ _ _ _ l f v hl2
        | none =>
          rw [reconcile_ok h s hne herr]
          constructor
          · rw [List.append_assoc, pushedBefore_detaches]
            cases hal : h.activeLeaf with
            | none =>
              rw [focusActs_none h _ hal, List.append_nil]
              exact runLoop_pushedBefore h _ _ _ _ _
            | some l2 =>
              by_cases hmem : l2 ∈ (runLoop h (deriveBaselinks h) 0 none []).1
              · rw [focusActs_mem h _ l2 hal hmem, List.append_nil]
                exact runLoop_pushedBefore h _ _ _ _ _
              · rw [focusActs_restore h _ l2 hal hmem]
                exact pushedBefore_append_setActive _ _ _
                  (runLoop_pushedBefore h _ _ _ _ _)
          · intro l f v hm
            rcases List.mem_append.1 hm with hdl | hfoc
            · rcases List.mem_append.1 hdl with hd | hl2
              · rcases List.mem_map.1 hd with ⟨m, _, hmm⟩
                cases hmm
              · exact runLoop_open_mem h _ _ _ _ l f v hl2
            · exfalso
              cases hal : h.activeLeaf with
              | none =>
                rw [focusActs_none h _ hal] at hfoc
                simp at hfoc
              | some l2 =>
                by_cases hmem : l2 ∈ (runLoop h (deriveBaselinks h) 0 none []).1
                · rw [focusActs_mem h _ l2 hal hmem] at hfoc
                  simp at hfoc
                · rw [focusActs_restore h _ l2 hal hmem] at hfoc
                  simp at hfoc

theorem splitOnChar_eq (sep : Char) (l : List Char) :
    splitOnChar sep l =
      l.takeWhile (fun c => c ≠ sep) ::
        (match l.dropWhile (fun c => c ≠ sep) with
         | [] => []
         | _ :: rest => splitOnChar sep rest) := by
  induction l with
  | nil => rfl
  | cons c cs ih =>
    by_cases hc : c = sep
    · subst hc
      simp only [splitOnChar, if_pos rfl]
      rw [List.takeWhile_cons_of_neg (by simp), List.dropWhile_cons_of_neg (by simp)]
      simp
    · simp only [splitOnChar, if_neg hc, ih]
      rw [List.takeWhile_cons_of_pos (by simp [hc]),
        List.dropWhile_cons_of_pos (by simp [hc])]

/-- Counterexample to claim C2 as stated: on the interior "a#b#c" the code's
`split('#')` destructuring yields the named view "b" (the second split
segment), not "b#c" (everything after the first '#') as the claim asserts. -/
theorem c2_cex :
    parseInterior ['a', '#', 'b', '#', 'c'] = (['a'], some ['b']) ∧
    (some ['b'] : Option (List Char)) ≠ some ['b', '#', 'c'] := by decide

/-- Claim C2 as amended: parsing splits the interior on every `#`: the
document path is the portion before the first `#`, and the named-view
identifier is the second split segment — the portion strictly between the
first `#` and the next one (or the end of the interior) — rather than the
entire portion after the first `#`; an absent `#` yields no identifier, and
a trailing `#` yields the empty identifier, which the open step then drops
as falsy. -/
theorem c2_split (interior : List Char) :
    parseInterior interior =
      (interior.takeWhile (fun c => c ≠ '#'), secondSegment interior) := by
  unfold parseInterior secondSegment
  rw [splitOnChar_eq '#' interior]
  cases hd : interior.dropWhile (fun c => c ≠ '#') with
  | nil => simp
  | cons x rest =>
    simp [splitOnChar_eq '#' rest]

theorem takeWhile_pred (p : Char → Bool) :
    ∀ l : List Char, ∀ c ∈ l.takeWhile p, p c = true := by
  intro l
  induction l with
  | nil => intro c hc; simp at hc
  | cons a t ih =>
    intro c hc
    cases hp : p a with
    | true =>
      rw [List.takeWhile_cons_of_pos hp] at hc
      rcases List.mem_cons.1 hc with rfl | hc2
      · exact hp
      · exact ih c hc2
    | false =>
      rw [List.takeWhile_cons_of_neg (by simp [hp])] at hc
      simp at hc

theorem span_brackets (x post : List Char) (hx : ∀ c ∈ x, c ≠ ']') :
    (x ++ ']' :: ']' :: post).takeWhile (fun c => c ≠ ']') = x ∧
    (x ++ ']' :: ']' :: post).dropWhile (fun c => c ≠ ']') = ']' :: ']' :: post := by
  induction x with
  | nil =>
    constructor
    · rw [List.nil_append, List.takeWhile_cons_of_neg (by simp)]
    · rw [List.nil_append, List.dropWhile_cons_of_neg (by simp)]
  | cons c cs ih =>
    have hc : c ≠ ']' := hx c (by simp)
    have ih2 := ih (fun d hd => hx d (by simp [hd]))
    constructor
    · rw [List.cons_append, List.takeWhile_cons_of_pos (by simp [hc]), ih2.1]
    · rw [List.cons_append, List.dropWhile_cons_of_pos (by simp [hc])]
      exact ih2.2

theorem takeWhile_ne_rb (rest : List Char) :
    ∀ c ∈ rest.takeWhile (fun c => c ≠ ']'), c ≠ ']' := by
  intro c hc
  exact of_decide_eq_true (takeWhile_pred (fun c => decide (c ≠ ']')) rest c hc)

theorem matchBracketAt_sound (s x : List Char) (h : matchBracketAt s = some x) :
    ∃ post, s = '[' :: '[' :: (x ++ ']' :: ']' :: post) ∧ x ≠ [] ∧
      ∀ c ∈ x, c ≠ ']' := by
  cases s with
  | nil => simp [matchBracketAt] at h
  | cons a t =>
    cases t with
    | nil => simp [matchBracketAt] at h
    | cons b rest =>
      simp only [matchBracketAt] at h
      split at h
      · next hab =>
        obtain ⟨ha, hb2⟩ := hab
        subst ha
        subst hb2
        split at h
        · simp at h
        · next hrun =>
          split at h
          · next c d t3 hdw =>
            split at h
            · next hcd =>
              obtain ⟨hc, hd2⟩ := hcd
              subst hc
              subst hd2
              injection h with hx2
              subst hx2
              refine ⟨t3, ?_, hrun, takeWhile_ne_rb rest⟩
              have hsplit :=
                List.takeWhile_append_dropWhile (fun c => decide (c ≠ ']')) rest
              rw [hdw] at hsplit
              rw [hsplit]
            · simp at h
          · simp at h
      · simp at h

theorem matchBracketAt_complete (x post : List Char) (hne : x ≠ [])
    (hx : ∀ c ∈ x, c ≠ ']') :
    matchBracketAt ('[' :: '[' :: (x ++ ']' :: ']' :: post)) = some x := by
  have hs := span_brackets x post hx
  simp only [matchBracketAt, hs.1, hs.2]
  simp [hne]

theorem findBracket_some_of_decomp :
    ∀ pre x post s : List Char, bracketDecomp s pre x post →
      (findBracket s).isSome = true := by
  intro pre
  induction pre with
  | nil =>
    intro x post s hd
    obtain ⟨hs, hne, hx⟩ := hd
    subst hs
    simp only [List.nil_append, findBracket,
      matchBracketAt_complete x post hne hx, Option.isSome_some]
  | cons c pre2 ih =>
    intro x post s hd
    obtain ⟨hs, hne, hx⟩ := hd
    subst hs
    rw [List.cons_append]
    cases hm : matchBracketAt
        (c :: (pre2 ++ '[' :: '[' :: (x ++ ']' :: ']' :: post))) with
    | some y => simp only [findBracket, hm, Option.isSome_some]
    | none =>
      simp only [findBracket, hm]
      exact ih x post (pre2 ++ '[' :: '[' :: (x ++ ']' :: ']' :: post))
        ⟨rfl, hne, hx⟩

theorem findBracket_sound :
    ∀ s x : List Char, findBracket s = some x →
      ∃ pre post, bracketDecomp s pre x post := by
  intro s
  induction s with
  | nil => intro x h; simp [findBracket] at h
  | cons c cs ih =>
    intro x h
    cases hm : matchBracketAt (c :: cs) with
    | some y =>
      simp only [findBracket, hm] at h
      injection h with hxy
      subst hxy
      obtain ⟨post, hs, hne, hx⟩ := matchBracketAt_sound _ _ hm
      exact ⟨[], post, by simpa using hs, hne, hx⟩
    | none =>
      simp only [findBracket, hm] at h
      obtain ⟨pre, post, hd⟩ := ih x h
      exact ⟨c :: pre, post,
        by rw [List.cons_append, hd.1], hd.2.1, hd.2.2⟩

theorem findBracket_leftmost :
    ∀ pre x post s : List Char, bracketDecomp s pre x post →
      (∀ pre2 x2 post2, bracketDecomp s pre2 x2 post2 →
        pre.length ≤ pre2.length) →
      findBracket s = some x := by
  intro pre
  induction pre with
  | nil =>
    intro x post s hd hmin
    obtain ⟨hs, hne, hx⟩ := hd
    subst hs
    simp only [List.nil_append, findBracket,
      matchBracketAt_complete x post hne hx]
  | cons c pre2 ih =>
    intro x post s hd hmin
    obtain ⟨hs, hne, hx⟩ := hd
    subst hs
    rw [List.cons_append]
    cases hm : matchBracketAt
        (c :: (pre2 ++ '[' :: '[' :: (x ++ ']' :: ']' :: post))) with
    | some y =>
      exfalso
      obtain ⟨post2, hs2, hne2, hx2⟩ := matchBracketAt_sound _ _ hm
      have hle := hmin [] y post2
        ⟨by rw [List.cons_append, hs2, List.nil_append], hne2, hx2⟩
      simp at hle
    | none =>
      simp only [findBracket, hm]
      refine ih x post (pre2 ++ '[' :: '[' :: (x ++ ']' :: ']' :: post))
        ⟨rfl, hne, hx⟩ ?_
      intro pre3 x3 post3 hd3
      have hle := hmin (c :: pre3) x3 post3
        ⟨by rw [List.cons_append, List.cons_append, hd3.1], hd3.2.1, hd3.2.2⟩
      simpa using hle

/-- Claim C10: the bracket-link parse is unanchored: an entry parses
successfully exactly when it contains somewhere within it a substring of the
form `[[x]]` with `x` nonempty and free of `]` (entries with no such
substring are skipped as malformed), and the interior captured by the
leftmost-match regex search is the `x` of the first such substring. -/
theorem c10_unanchored (link : List Char) :
    ((∃ pre x post, bracketDecomp link pre x post) ↔
      (findBracket link).isSome = true) ∧
    ∀ pre x post, bracketDecomp link pre x post →
      (∀ pre2 x2 post2, bracketDecomp link pre2 x2 post2 →
        pre.length ≤ pre2.length) →
      findBracket link = some x := by
  constructor
  · constructor
    · rintro ⟨pre, x, post, hd⟩
      exact findBracket_some_of_decomp pre x post link hd
    · intro hs
      cases hfb : findBracket link with
      | none =>
        rw [hfb] at hs
        simp at hs
      | some x =>
        obtain ⟨pre, post, hd⟩ := findBracket_sound link x hfb
        exact ⟨pre, x, post, hd⟩
  · intro pre x post hd hmin
    exact findBracket_leftmost pre x post link hd hmin

/-- Witness for C10 at the entry "[[b]]": the decomposition with empty prefix
is trivially leftmost, and the parse captures "b". -/
theorem c10_witness : findBracket ['[', '[', 'b', ']', ']'] = some ['b'] :=
  (c10_unanchored ['[', '[', 'b', ']', ']']).2 [] ['b'] []
    ⟨rfl, by decide, by decide⟩ (fun pre2 x2 post2 _ => Nat.zero_le _)

end Baselinks
